import Mathlib

/-!
Verification development for the QCQP solver core (`qcqp/qcqp_problem.py`).

The numerical code works on dense/sparse float matrices and vectors and calls
external numerical routines (LAPACK `eigh`, `scipy` sparse linear solve, the
cvxpy SDP solver, the dccp solver).  Floating-point values are modelled by
exact rationals (every float is a rational), vectors by `List ℚ` and matrices
by `List (List ℚ)` (row lists).  External numerical routines are modelled as
oracle inputs: an eigendecomposition result is passed in as data, the sparse
linear solver is passed in as a function, the SDP solver's answer (status,
lifted matrix, value) is passed in as data.  Loops whose termination depends
on real-number analysis (`while phi(s) <= 0`, the bisection loop) are given a
fuel parameter; exhausting the fuel models divergence of the source loop and
is signalled by `none`.
-/

/-- Dot product of two rational vectors (`numpy` inner product). -/
def dotL (a b : List ℚ) : ℚ := (List.zipWith (fun x y => x * y) a b).sum

/-- Matrix–vector product; a matrix is a list of rows. -/
def matVec (A : List (List ℚ)) (v : List ℚ) : List ℚ := A.map (fun row => dotL row v)

/-- Matrix transpose (`A.T`). -/
def transposeM (m : List (List ℚ)) : List (List ℚ) :=
  (List.range (m.headD []).length).map (fun j => m.map (fun row => row.getD j 0))

/-- Elementwise vector sum. -/
def vadd (a b : List ℚ) : List ℚ := List.zipWith (fun x y => x + y) a b

/-- Elementwise vector difference. -/
def vsub (a b : List ℚ) : List ℚ := List.zipWith (fun x y => x - y) a b

/-- Scalar times vector. -/
def smulV (c : ℚ) (v : List ℚ) : List ℚ := v.map (fun x => c * x)

/-- Vector negation. -/
def negV (v : List ℚ) : List ℚ := v.map (fun x => -x)

/-- The zero vector of length `n`. -/
def zeroVec (n : Nat) : List ℚ := List.replicate n 0

/-- Sum of a list of length-`n` vectors (`np.sum(_, 1)` over columns). -/
def sumVecs (n : Nat) (vs : List (List ℚ)) : List ℚ := vs.foldl vadd (zeroVec n)

/-- Elementwise matrix sum. -/
def matAdd (a b : List (List ℚ)) : List (List ℚ) := List.zipWith vadd a b

/-- Scalar times matrix. -/
def smulM (c : ℚ) (m : List (List ℚ)) : List (List ℚ) := m.map (smulV c)

/-- Matrix negation. -/
def negM (m : List (List ℚ)) : List (List ℚ) := m.map negV

/-- The `n × n` identity matrix (`sp.identity(n)`). -/
def idMat (n : Nat) : List (List ℚ) :=
  (List.range n).map (fun i => (List.range n).map (fun j => if i = j then (1 : ℚ) else 0))

/-- The quadratic form `x.T*A*x + x.T*b + c` evaluated at `x`; this is the
expression the source writes for constraint/objective values. -/
def quadVal (A : List (List ℚ)) (b : List ℚ) (c : ℚ) (x : List ℚ) : ℚ :=
  dotL x (matVec A x) + dotL x b + c

/-- Output of the external `LA.eigh` call: eigenvalues `lmb` and the
orthogonal eigenvector matrix `Q` (columns are eigenvectors). -/
structure EighResult where
  lmb : List ℚ
  Q : List (List ℚ)
deriving DecidableEq

/-- `xhat(nu) = -(nu*bhat - 2*zhat) / (2*(1 + nu*lmb))`, elementwise
(`one_qcqp`, the transformed candidate point). -/
def xhatv (nu : ℚ) (lmb zhat bhat : List ℚ) : List ℚ :=
  List.zipWith (fun lz bh => -(nu * bh - 2 * lz.2) / (2 * (1 + nu * lz.1))) (lmb.zip zhat) bhat

/-- `phi(nu) = lmb ⬝ xhat(nu)^2 + bhat ⬝ xhat(nu) + c`, the boundary-constraint
residual as a function of the dual variable `nu` (`one_qcqp.phi`). -/
def phi (lmb zhat bhat : List ℚ) (c : ℚ) (nu : ℚ) : ℚ :=
  let xh := xhatv nu lmb zhat bhat
  dotL lmb (xh.map (fun a => a * a)) + dotL bhat xh + c

/-- Seed for the lower bracket endpoint: `max {-1/l : l ∈ lmb, l > 0}`,
`none` when no positive eigenvalue exists (the `-inf` sentinel). -/
def seedS (lmb : List ℚ) : Option ℚ :=
  lmb.foldl (fun acc l =>
    if 0 < l then
      match acc with
      | none => some (-1 / l)
      | some s => some (max s (-1 / l))
    else acc) none

/-- Seed for the upper bracket endpoint: `min {-1/l : l ∈ lmb, l < 0}`,
`none` when no negative eigenvalue exists (the `+inf` sentinel). -/
def seedE (lmb : List ℚ) : Option ℚ :=
  lmb.foldl (fun acc l =>
    if l < 0 then
      match acc with
      | none => some (-1 / l)
      | some e => some (min e (-1 / l))
    else acc) none

/-- `s = -1; while phi(s) <= 0: s *= 2`, with fuel; `none` models the source
loop never exiting. -/
def expandS (f : ℚ → ℚ) : Nat → ℚ → Option ℚ
  | 0, s => if f s ≤ 0 then none else some s
  | fuel + 1, s => if f s ≤ 0 then expandS f fuel (s * 2) else some s

/-- `e = 1; while phi(e) >= 0: e *= 2`, with fuel. -/
def expandE (f : ℚ → ℚ) : Nat → ℚ → Option ℚ
  | 0, e => if 0 ≤ f e then none else some e
  | fuel + 1, e => if 0 ≤ f e then expandE f fuel (e * 2) else some e

/-- The bisection loop of `one_qcqp`: `while e-s > tol`, midpoint `m`,
`phi(m) > 0 → s = m`, `phi(m) < 0 → e = m`, `phi(m) = 0 → s = e = m; break`.
Returns the final bracket `(s, e)`; `none` when the fuel runs out first. -/
def bisect (f : ℚ → ℚ) (tol : ℚ) : Nat → ℚ → ℚ → Option (ℚ × ℚ)
  | 0, s, e => if e - s ≤ tol then some (s, e) else none
  | fuel + 1, s, e =>
    if e - s ≤ tol then some (s, e)
    else
      let m := (s + e) / 2
      let p := f m
      if 0 < p then bisect f tol fuel m e
      else if p < 0 then bisect f tol fuel s m
      else some (m, m)

/-- Lower bracket endpoint: the eigenvalue seed if it exists, else the
doubling expansion from `-1`. -/
def bracketS (f : ℚ → ℚ) (lmb : List ℚ) (fuel : Nat) : Option ℚ :=
  match seedS lmb with
  | some s => some s
  | none => expandS f fuel (-1)

/-- Upper bracket endpoint: the eigenvalue seed if it exists, else the
doubling expansion from `1`. -/
def bracketE (f : ℚ → ℚ) (lmb : List ℚ) (fuel : Nat) : Option ℚ :=
  match seedE lmb with
  | some e => some e
  | none => expandE f fuel 1

/-- The bracket seeding followed by the bisection loop: the final bracket
`(s, e)` the source's `while e-s > tol` loop ends with, or `none` when one of
the three loops does not terminate within its fuel. -/
def bisectResult (f : ℚ → ℚ) (lmb : List ℚ) (fuel : Nat) (tol : ℚ) : Option (ℚ × ℚ) :=
  match bracketS f lmb fuel, bracketE f lmb fuel with
  | some s, some e => bisect f tol fuel s e
  | some _, none => none
  | none, _ => none

/-- `one_qcqp(z, A, b, c, equality_cons, tol)`: nearest point to `z` on (or
inside, for an inequality) the set `x.T*A*x + b.T*x + c {=, ≤} 0`.  The
eigendecomposition of `A` is the oracle input `eg`.  Fast path: for an
inequality with `z` already feasible, return `z`.  Otherwise transform by the
eigenbasis, bracket the dual variable, bisect `phi`, and reconstruct
`x = Q * xhat(nu)` at `nu = (s + e)/2`. -/
def one_qcqp (z : List ℚ) (A : List (List ℚ)) (b : List ℚ) (c : ℚ)
    (equality_cons : Bool) (eg : EighResult) (fuel : Nat) (tol : ℚ) : Option (List ℚ) :=
  if equality_cons = false ∧ quadVal A b c z ≤ 0 then some z
  else
    let zhat := matVec (transposeM eg.Q) z
    let bhat := matVec (transposeM eg.Q) b
    (bisectResult (phi eg.lmb zhat bhat c) eg.lmb fuel tol).map
      (fun se => matVec eg.Q (xhatv ((se.1 + se.2) / 2) eg.lmb zhat bhat))

/-- `assign_vars(xs, vals)`: slice the flat result vector per variable in the
fixed flattened order (`ind = 0; for x in xs: x.value = vals[ind:ind+size];
ind += size`).  A variable of size `sz` receives the next `sz` entries; the
reshape is modelled by keeping the flat slice. -/
def assign_vars : List Nat → List ℚ → List (List ℚ)
  | [], _ => []
  | sz :: rest, vals => vals.take sz :: assign_vars rest (vals.drop sz)

/-- `X[:, -1]`: the last column of a matrix. -/
def lastCol (X : List (List ℚ)) : List ℚ := X.map (fun row => row.getLastD 0)

/-- Status reported by the external SDP solver:
`cvx.OPTIMAL`, `cvx.OPTIMAL_INACCURATE`, or anything else. -/
inductive SdpStatus where
  | optimal : SdpStatus
  | optimal_inaccurate : SdpStatus
  | failed : String → SdpStatus
deriving DecidableEq

/-- `solve_SDP_relaxation`: the SDP construction and solve are delegated to the
external solver, whose answer `(status, Xstar, value)` is the oracle input.
If the status is not optimal (or inaccurate-optimal), return `(None, value)`
(no point estimate); otherwise return the lifted matrix and the value. -/
def solve_SDP_relaxation (status : SdpStatus) (Xstar : List (List ℚ)) (value : ℚ) :
    Option (List (List ℚ)) × ℚ :=
  match status with
  | .optimal => (some Xstar, value)
  | .optimal_inaccurate => (some Xstar, value)
  | .failed _ => (none, value)

/-- `relax_sdp`: calls `solve_SDP_relaxation`, then unconditionally runs
`assign_vars(self.variables(), X[:, -1])` and returns the bound.  When the
first component is `None`, the subscript `X[:, -1]` raises a `TypeError`
(`NoneType` is not subscriptable), modelled by `Except.error`.  On success the
result carries the bound and the per-variable assignments. -/
def relax_sdp (status : SdpStatus) (Xstar : List (List ℚ)) (value : ℚ)
    (sizes : List Nat) : Except String (ℚ × List (List ℚ)) :=
  match solve_SDP_relaxation status Xstar value with
  | (none, _) => .error "TypeError: NoneType object is not subscriptable"
  | (some X, v) => .ok (v, assign_vars sizes (lastCol X))

/-- One flattened scalar constraint of the ADMM heuristic: its quadratic
coefficients `(P, Q, R)`, the relation tag `eq` (`constr.OP_NAME == '=='`),
and the oracle eigendecomposition of `P` used by `one_qcqp`. -/
structure Constr where
  P : List (List ℚ)
  Q : List ℚ
  R : ℚ
  eq : Bool
  eigh : EighResult
deriving DecidableEq

/-- Default constraint, used only for out-of-range list indexing. -/
def cdflt : Constr := ⟨[], [], 0, false, ⟨[], []⟩⟩

/-- The normalized ADMM problem data: objective coefficients `(P0, Q0, R0)`
(already sign-normalized), the flattened constraint list, and the variable
dimension `n`. -/
structure AdmmProblem where
  P0 : List (List ℚ)
  Q0 : List ℚ
  R0 : ℚ
  cons : List Constr
  n : Nat
deriving DecidableEq

/-- ADMM iterate: consensus `z`, local copies `xs` (one per constraint) and
dual variables `ys`. -/
structure AdmmState where
  z : List ℚ
  xs : List (List ℚ)
  ys : List (List ℚ)
deriving DecidableEq

/-- Result of one inner ADMM iteration: the new iterate, the averaged
consensus estimate `za`, and its max violation and objective value. -/
structure IterOut where
  st : AdmmState
  za : List ℚ
  maxviol : ℚ
  objt : ℚ
deriving DecidableEq

/-- `zlhs = 2*P0 + rho*M*sp.identity(N)`, computed once per trial. -/
def zlhsOf (pr : AdmmProblem) (rho : ℚ) : List (List ℚ) :=
  matAdd (smulM 2 pr.P0) (smulM (rho * pr.cons.length) (idMat pr.n))

/-- `rhs = np.sum(rho*xs - ys, 1) - Q0`. -/
def rhsOf (pr : AdmmProblem) (rho : ℚ) (st : AdmmState) : List ℚ :=
  vsub (sumVecs pr.n ((st.xs.zip st.ys).map (fun p => vsub (smulV rho p.1) p.2))) pr.Q0

/-- The per-constraint loop of an inner iteration: for each constraint `i`,
`zz = z + (1/rho)*ys[:, i]`, `xs[:, i] = one_qcqp(zz, PP[i], QQ[i], RR[i],
rel[i])`, `ys[:, i] += rho*(z - xs[:, i])`.  `none` when a `one_qcqp` call
does not terminate within its fuel. -/
def updateXY (cons : List Constr) (z : List ℚ) (ys : List (List ℚ)) (rho : ℚ)
    (fuel : Nat) (tol : ℚ) : Option (List (List ℚ) × List (List ℚ)) :=
  match cons, ys with
  | [], [] => some ([], [])
  | con :: cs, y :: yrest =>
    let zz := vadd z (smulV (1 / rho) y)
    match one_qcqp zz con.P con.Q con.R con.eq con.eigh fuel tol with
    | none => none
    | some xi =>
      let yi := vadd y (smulV rho (vsub z xi))
      match updateXY cs z yrest rho fuel tol with
      | none => none
      | some (xs', ys') => some (xi :: xs', yi :: ys')
  | _, _ => none

/-- Violation of one constraint at `za`: `|value|` for an equality,
`max(0, value)` for an inequality. -/
def violOf (con : Constr) (za : List ℚ) : ℚ :=
  let v := quadVal con.P con.Q con.R za
  if con.eq then |v| else max 0 v

/-- `maxviol`: fold of `max` over the constraint violations, starting at 0. -/
def maxViol (cons : List Constr) (za : List ℚ) : ℚ :=
  cons.foldl (fun acc c => max acc (violOf c za)) 0

/-- One inner ADMM iteration: solve the consensus system via the external
solver oracle `linsolve`, run the per-constraint updates, then form
`za = (np.sum(xs, 1) + z)/(M + 1)` and evaluate its violation and objective. -/
def admmIter (pr : AdmmProblem) (linsolve : List (List ℚ) → List ℚ → List ℚ)
    (zlhs : List (List ℚ)) (rho : ℚ) (fuel : Nat) (tol : ℚ) (st : AdmmState) :
    Option IterOut :=
  let z := linsolve zlhs (rhsOf pr rho st)
  match updateXY pr.cons z st.ys rho fuel tol with
  | none => none
  | some (xs', ys') =>
    let za := smulV (1 / ((pr.cons.length : ℚ) + 1)) (vadd (sumVecs pr.n xs') z)
    some ⟨⟨z, xs', ys'⟩, za, maxViol pr.cons za, quadVal pr.P0 pr.Q0 pr.R0 za⟩

/-- Best-found state: `none` is `bestf = inf, bestx = None`, otherwise the
pair `(bestf, bestx)`. -/
abbrev Best : Type := Option (ℚ × List ℚ)

/-- `bestf > objt` where `bestf` may be `+inf`. -/
def bestGt (best : Best) (objt : ℚ) : Bool :=
  match best with
  | none => true
  | some p => objt < p.1

/-- The Best-found update: `if maxviol < eps and bestf > objt: bestf = objt;
bestx = za`. -/
def updateBest (eps : ℚ) (best : Best) (maxviol objt : ℚ) (za : List ℚ) : Best :=
  if maxviol < eps ∧ bestGt best objt = true then some (objt, za) else best

/-- `b'` improves on (or equals) `b`: the best objective did not increase,
where `none` is `+inf`. -/
def bestLe (b' b : Best) : Prop :=
  match b, b' with
  | none, _ => True
  | some _, none => False
  | some p, some q => q.1 ≤ p.1

/-- The inner iteration loop of one trial (`for t in range(num_iters)`): on
divergence (`maxviol > viollim`) double `rho` and break; otherwise update the
Best-found state and continue. -/
def runIters (pr : AdmmProblem) (linsolve : List (List ℚ) → List ℚ → List ℚ)
    (zlhs : List (List ℚ)) (fuel : Nat) (tol viollim eps : ℚ) :
    Nat → ℚ → Best → AdmmState → Option (ℚ × Best)
  | 0, rho, best, _ => some (rho, best)
  | t + 1, rho, best, st =>
    match admmIter pr linsolve zlhs rho fuel tol st with
    | none => none
    | some out =>
      if viollim < out.maxviol then some (rho * 2, best)
      else runIters pr linsolve zlhs fuel tol viollim eps t rho
        (updateBest eps best out.maxviol out.objt out.za) out.st

/-- One trial: take the drawn consensus point `z0`, set every local copy to
`z0` and every dual to zero, form `zlhs`, and run the inner iterations. -/
def runTrial (pr : AdmmProblem) (linsolve : List (List ℚ) → List ℚ → List ℚ)
    (num_iters fuel : Nat) (tol viollim eps : ℚ) (rho : ℚ) (best : Best)
    (z0 : List ℚ) : Option (ℚ × Best) :=
  let st : AdmmState :=
    ⟨z0, List.replicate pr.cons.length z0, List.replicate pr.cons.length (zeroVec pr.n)⟩
  runIters pr linsolve (zlhsOf pr rho) fuel tol viollim eps num_iters rho best st

/-- The trial loop (`for sample in range(num_samples)`): one trial per drawn
initial point; `rho` and the Best-found state persist from trial to trial. -/
def runTrials (pr : AdmmProblem) (linsolve : List (List ℚ) → List ℚ → List ℚ)
    (num_iters fuel : Nat) (tol viollim eps : ℚ) :
    ℚ → Best → List (List ℚ) → Option (ℚ × Best)
  | rho, best, [] => some (rho, best)
  | rho, best, z0 :: rest =>
    match runTrial pr linsolve num_iters fuel tol viollim eps rho best z0 with
    | none => none
    | some rb => runTrials pr linsolve num_iters fuel tol viollim eps rb.1 rb.2 rest

/-- Minimum of a list of rationals (`np.min`), 0 for the empty list. -/
def minList : List ℚ → ℚ
  | [] => 0
  | h :: t => t.foldl min h

/-- Initial penalty: `rho = 2*(1 - lmb_min)/M` if `lmb_min < 0` else `1/M`,
then `rho *= 5`, where `lmb0` are the oracle eigenvalues of the (effective)
objective matrix `P0`. -/
def rhoInit (lmb0 : List ℚ) (m : Nat) : ℚ :=
  (if minList lmb0 < 0 then 2 * (1 - minList lmb0) / m else 1 / m) * 5

/-- Observable outcome of `noncvx_admm`: an inner loop that never exits
(`hung`), the `TypeError` raised by `assign_vars(vars, None)` when no feasible
point was found, or the returned `bestf` with the per-variable assignments. -/
inductive AdmmResult where
  | hung : AdmmResult
  | typeError : AdmmResult
  | ok : ℚ → List (List ℚ) → AdmmResult
deriving DecidableEq

/-- `noncvx_admm`: negate the objective coefficients when the sense is
maximize, initialize `rho` from the objective curvature and the Best-found
state to none-found, run all trials, then `assign_vars(self.variables(),
bestx); return bestf`.  Note the returned `bestf` is NOT negated back for a
maximize objective (the source returns it as is), and `bestx = None` makes
`assign_vars` raise. -/
def noncvx_admm (pr : AdmmProblem) (maximize : Bool) (lmb0 : List ℚ)
    (sizes : List Nat) (linsolve : List (List ℚ) → List ℚ → List ℚ)
    (zdraws : List (List ℚ)) (num_iters fuel : Nat) (tol viollim eps : ℚ) :
    AdmmResult :=
  let prn : AdmmProblem :=
    if maximize then ⟨negM pr.P0, negV pr.Q0, -pr.R0, pr.cons, pr.n⟩ else pr
  let rho0 := rhoInit lmb0 prn.cons.length
  match runTrials prn linsolve num_iters fuel tol viollim eps rho0 none zdraws with
  | none => .hung
  | some (_, none) => .typeError
  | some (_, some (bestf, bestx)) => .ok bestf (assign_vars sizes bestx)

/-- Rayleigh-quotient positive semidefiniteness over ℚ:
`x ⬝ P x ≥ 0` for all `x`. -/
def PSDq {n : Nat} (P : Matrix (Fin n) (Fin n) ℚ) : Prop :=
  ∀ x : Fin n → ℚ, 0 ≤ Matrix.dotProduct x (P.mulVec x)

/-- `split_quadratic(P)`: if `P.nnz == 0` return two zero matrices; else with
`lmb_min` the oracle minimum eigenvalue of `P`, if `lmb_min < 0` return
`(P + (1 - lmb_min)*I, (1 - lmb_min)*I)`, else `(P, 0)`. -/
def split_quadratic {n : Nat} (P : Matrix (Fin n) (Fin n) ℚ) (lmbMin : ℚ) :
    Matrix (Fin n) (Fin n) ℚ × Matrix (Fin n) (Fin n) ℚ :=
  if P = 0 then (0, 0)
  else if lmbMin < 0 then (P + (1 - lmbMin) • 1, (1 - lmbMin) • 1)
  else (P, 0)

/-- `qcqp_dccp`: the sign-handling skeleton of the DCCP strategy.  The
construction of the DC constraints (via `split_quadratic`) and the external
dccp solve are delegated to the oracle `solver`, which receives the effective
objective coefficients and reports `(result, X.value)`.  A maximize objective
is negated before solving and the reported result is negated back; the point
is assigned to the variables. -/
def qcqp_dccp (P0 : List (List ℚ)) (Q0 : List ℚ) (R0 : ℚ) (maximize : Bool)
    (solver : List (List ℚ) → List ℚ → ℚ → ℚ × List ℚ) (sizes : List Nat) :
    ℚ × List (List ℚ) :=
  let P0e := if maximize then negM P0 else P0
  let Q0e := if maximize then negV Q0 else Q0
  let R0e := if maximize then -R0 else R0
  let rx := solver P0e Q0e R0e
  let result := if maximize then -rx.1 else rx.1
  (result, assign_vars sizes rx.2)

/-- Concrete 1-dimensional linear solver used to instantiate the `spsolve`
oracle in witnesses: solves `[[a]] * [x] = [v]`. -/
def linsolve1 (A : List (List ℚ)) (v : List ℚ) : List ℚ :=
  [v.headD 0 / (A.headD []).headD 1]

theorem assign_vars_take :
    ∀ (sizes : List Nat) (vals : List ℚ),
      assign_vars sizes (vals.take sizes.sum) = assign_vars sizes vals := by
  intro sizes
  induction sizes with
  | nil => intro vals; rfl
  | cons s rest ih =>
    intro vals
    simp only [assign_vars, List.sum_cons]
    congr 1
    · rw [List.take_take]
      congr 1
      omega
    · rw [List.drop_take]
      have hK : s + rest.sum - s = rest.sum := by omega
      rw [hK]
      exact ih (vals.drop s)

theorem bisect_width (f : ℚ → ℚ) (tol : ℚ) (htol : 0 ≤ tol) :
    ∀ (fuel : Nat) (s e s' e' : ℚ), bisect f tol fuel s e = some (s', e') → e' - s' ≤ tol := by
  intro fuel
  induction fuel with
  | zero =>
    intro s e s' e' h
    simp only [bisect] at h
    split at h
    · injection h with h'
      obtain ⟨rfl, rfl⟩ := Prod.mk.inj h'
      assumption
    · exact Option.noConfusion h
  | succ n ih =>
    intro s e s' e' h
    simp only [bisect] at h
    split at h
    · injection h with h'
      obtain ⟨rfl, rfl⟩ := Prod.mk.inj h'
      assumption
    · split at h
      · exact ih _ _ _ _ h
      · split at h
        · exact ih _ _ _ _ h
        · injection h with h'
          obtain ⟨rfl, rfl⟩ := Prod.mk.inj h'
          simpa using htol

/-- Claim C4 (amended): when the fast path does not trigger and `one_qcqp`
returns `x`, then the bracketing-and-bisection pipeline ended with a bracket
`(s, e)` of width at most `tol` and `x` is the reconstructed point
`Q * xhat((s + e)/2)`.  The dual variable `nu` is therefore within `tol` of
the bracket endpoints, but the boundary residual `x.T*A*x + b.T*x + c` itself
is NOT bounded by the tolerance in general (see the counterexample). -/
theorem one_qcqp_boundary_bracket (z : List ℚ) (A : List (List ℚ)) (b : List ℚ)
    (c : ℚ) (eqc : Bool) (eg : EighResult) (fuel : Nat) (tol : ℚ) (x : List ℚ)
    (htol : 0 ≤ tol) (hfast : ¬(eqc = false ∧ quadVal A b c z ≤ 0))
    (hx : one_qcqp z A b c eqc eg fuel tol = some x) :
    (bisectResult (phi eg.lmb (matVec (transposeM eg.Q) z) (matVec (transposeM eg.Q) b) c)
        eg.lmb fuel tol).elim False
      (fun se => se.2 - se.1 ≤ tol ∧
        x = matVec eg.Q (xhatv ((se.1 + se.2) / 2) eg.lmb (matVec (transposeM eg.Q) z)
              (matVec (transposeM eg.Q) b))) := by
  simp only [one_qcqp, if_neg hfast] at hx
  cases hb : bisectResult (phi eg.lmb (matVec (transposeM eg.Q) z)
      (matVec (transposeM eg.Q) b) c) eg.lmb fuel tol with
  | none => rw [hb] at hx; exact Option.noConfusion hx
  | some se =>
    rw [hb] at hx
    injection hx with hx'
    refine ⟨?_, hx'.symm⟩
    unfold bisectResult at hb
    cases h1 : bracketS (phi eg.lmb (matVec (transposeM eg.Q) z)
        (matVec (transposeM eg.Q) b) c) eg.lmb fuel with
    | none => rw [h1] at hb; exact Option.noConfusion hb
    | some s0 =>
      rw [h1] at hb
      cases h2 : bracketE (phi eg.lmb (matVec (transposeM eg.Q) z)
          (matVec (transposeM eg.Q) b) c) eg.lmb fuel with
      | none => rw [h2] at hb; exact Option.noConfusion hb
      | some e0 =>
        rw [h2] at hb
        exact bisect_width (phi eg.lmb (matVec (transposeM eg.Q) z)
          (matVec (transposeM eg.Q) b) c) tol htol fuel s0 e0 se.1 se.2 hb

/-- Witness for the amended C4 at the equality instance `z = [2]`, `A = [[1]]`,
`b = [0]`, `c = -4`: the first midpoint `nu = 0` is an exact root, the final
bracket is `(0, 0)`, and the returned point is `[2]`. -/
theorem one_qcqp_boundary_bracket_w :
    (0 : ℚ) ≤ 1 / 1000000 ∧ ¬((true = false) ∧ quadVal [[1]] [0] (-4) [(2 : ℚ)] ≤ 0) ∧
      one_qcqp [(2 : ℚ)] [[1]] [0] (-4) true ⟨[1], [[1]]⟩ 100 (1 / 1000000) = some [2] ∧
      (bisectResult (phi [1] (matVec (transposeM [[1]]) [2]) (matVec (transposeM [[1]]) [0]) (-4))
          [1] 100 (1 / 1000000)).elim False
        (fun se => se.2 - se.1 ≤ 1 / 1000000 ∧
          [2] = matVec [[1]] (xhatv ((se.1 + se.2) / 2) [1] (matVec (transposeM [[1]]) [2])
                (matVec (transposeM [[1]]) [0]))) :=
  ⟨by norm_num, by decide!, by decide!,
    one_qcqp_boundary_bracket [(2 : ℚ)] [[1]] [0] (-4) true ⟨[1], [[1]]⟩ 100 (1 / 1000000) [2]
      (by norm_num) (by decide!) (by decide!)⟩

/-- Claim C4 counterexample: for `z = [1]`, `A = [[1]]`, `b = [0]`,
`c = -1000000`, equality relation (so the fast path never triggers) and the
default tolerance `1e-6`, `one_qcqp` returns `x = [2097152/2097]` whose
boundary residual `x.T*A*x + b.T*x + c = 637511104/4397409 ≈ 145` is far
outside the tolerance: the bisection tolerance bounds the dual variable, not
the residual. -/
theorem one_qcqp_residual_cex :
    one_qcqp [(1 : ℚ)] [[1]] [0] (-1000000) true ⟨[1], [[1]]⟩ 100 (1 / 1000000) =
        some [2097152 / 2097] ∧
      quadVal [[1]] [0] (-1000000) [2097152 / 2097] = 637511104 / 4397409 ∧
      ¬|quadVal [[1]] [0] (-1000000) [2097152 / 2097]| ≤ 1 / 1000 :=
  ⟨by decide!, by decide!, by decide!⟩

/-- Claim C8: for an inequality relation (`equality_cons = false`), when the
target `z` already satisfies `z.T*A*z + b.T*z + c ≤ 0`, `one_qcqp` returns `z`
unchanged — for every eigendecomposition oracle and every fuel, so no
eigendecomposition or bisection influences the result. -/
theorem one_qcqp_fast_path (z : List ℚ) (A : List (List ℚ)) (b : List ℚ) (c : ℚ)
    (eg : EighResult) (fuel : Nat) (tol : ℚ) (hfeas : quadVal A b c z ≤ 0) :
    one_qcqp z A b c false eg fuel tol = some z := by
  unfold one_qcqp
  rw [if_pos ⟨rfl, hfeas⟩]

/-- Witness for C8 at `z = [0]`, `A = [[1]]`, `b = [0]`, `c = -1`, with a junk
eigendecomposition oracle and zero fuel: the fast path fires. -/
theorem one_qcqp_fast_path_w :
    quadVal [[1]] [0] (-1) [(0 : ℚ)] ≤ 0 ∧
      one_qcqp [(0 : ℚ)] [[1]] [0] (-1) false ⟨[37], [[2]]⟩ 0 0 = some [0] :=
  ⟨by decide!, one_qcqp_fast_path _ _ _ _ _ _ _ (by decide!)⟩

/-- Claim C2 (code bug): on a non-optimal solver status,
`solve_SDP_relaxation` does return the degraded `(None, value)` pair, but the
caller-facing strategy `relax_sdp` then evaluates `X[:, -1]` on `X = None`,
raising a `TypeError` instead of returning the bound without error. -/
theorem relax_sdp_failure_raises :
    solve_SDP_relaxation (.failed "infeasible") [[1]] 0 = (none, 0) ∧
      relax_sdp (.failed "infeasible") [[1]] 0 [1] =
        .error "TypeError: NoneType object is not subscriptable" :=
  ⟨rfl, rfl⟩

/-- Claim C3 (code bug): minimize `x^2` subject to `x^2 - 1 = 0`, one trial
with drawn start `z = 0` and one inner iteration: the candidate `za = 0` has
violation `1 > eps`, so nothing is ever stored in Best-found, and the final
`assign_vars(self.variables(), bestx)` with `bestx = None` raises a
`TypeError` instead of reporting "no feasible point found" normally. -/
theorem noncvx_admm_no_feasible_raises :
    noncvx_admm ⟨[[1]], [0], 0, [⟨[[1]], [0], -1, true, ⟨[1], [[1]]⟩⟩], 1⟩ false [1] [1]
      linsolve1 [[0]] 1 100 (1 / 1000000) 10000000000 (1 / 1000) = .typeError := by
  decide!

/-- Claim C1 (code bug): for the maximize problem `maximize -x^2 + 5` subject
to `x^2 ≤ 0` (`P0 = [[-1]]`, `Q0 = [0]`, `R0 = 5`), `noncvx_admm` negates
`P0, Q0, R0` before optimizing, finds the feasible point `x = 0`, but returns
`bestf = -5` — the internal minimization objective — without negating it back,
while the caller's maximization objective at the returned point is `5`.  The
DCCP strategy, in contrast, does negate the coefficients before solving AND
negates the reported value back (third conjunct). -/
theorem noncvx_admm_maximize_sign_bug :
    noncvx_admm ⟨[[-1]], [0], 5, [⟨[[1]], [0], 0, false, ⟨[1], [[1]]⟩⟩], 1⟩ true [1] [1]
        linsolve1 [[0]] 1 100 (1 / 1000000) 10000000000 (1 / 1000) = .ok (-5) [[0]] ∧
      quadVal [[-1]] [0] 5 [0] = 5 ∧
      (∀ (P0 : List (List ℚ)) (Q0 : List ℚ) (R0 : ℚ)
          (solver : List (List ℚ) → List ℚ → ℚ → ℚ × List ℚ) (sizes : List Nat),
        qcqp_dccp P0 Q0 R0 true solver sizes
          = (-(solver (negM P0) (negV Q0) (-R0)).1,
              assign_vars sizes (solver (negM P0) (negV Q0) (-R0)).2)) :=
  ⟨by decide!, by decide!, fun _ _ _ _ _ => rfl⟩

/-- Claim C10: on solver success (optimal or inaccurate-optimal status),
`relax_sdp` returns the bound and assigns back exactly the first `N` entries
of the last column of `X*` — the `(N+1)`-length column minus its final
homogenization entry — sliced per variable in the fixed flattened order. -/
theorem relax_sdp_point_estimate (Xstar : List (List ℚ)) (value : ℚ)
    (sizes : List Nat) (N : Nat) (hsum : sizes.sum = N)
    (hlen : (lastCol Xstar).length = N + 1) :
    relax_sdp .optimal Xstar value sizes =
        .ok (value, assign_vars sizes ((lastCol Xstar).take N)) ∧
      relax_sdp .optimal_inaccurate Xstar value sizes =
        .ok (value, assign_vars sizes ((lastCol Xstar).take N)) := by
  subst hsum
  rw [assign_vars_take]
  exact ⟨rfl, rfl⟩

/-- Witness for C10: two size-1 variables, `N = 2`, lifted matrix with last
column `[5, 7, 1]`: the assignment takes `[5, 7]` and ignores the final `1`. -/
theorem relax_sdp_point_estimate_w :
    List.sum [1, 1] = 2 ∧ (lastCol [[0, 0, 5], [0, 0, 7], [0, 0, 1]]).length = 2 + 1 ∧
      relax_sdp .optimal [[0, 0, 5], [0, 0, 7], [0, 0, 1]] 3 [1, 1] =
        .ok (3, assign_vars [1, 1] ((lastCol [[0, 0, 5], [0, 0, 7], [0, 0, 1]]).take 2)) ∧
      assign_vars [1, 1] ((lastCol [[0, 0, 5], [0, 0, 7], [0, 0, 1]]).take 2) = [[5], [7]] :=
  ⟨by decide, by decide!,
    (relax_sdp_point_estimate [[0, 0, 5], [0, 0, 7], [0, 0, 1]] 3 [1, 1] 2
        (by decide) (by decide!)).1, by decide!⟩
theorem bestLe_refl (b : Best) : bestLe b b := by
  cases b with
  | none => trivial
  | some p => exact le_refl p.1

theorem bestLe_trans (a b c : Best) (h1 : bestLe a b) (h2 : bestLe b c) : bestLe a c := by
  cases c with
  | none => trivial
  | some pc =>
    cases b with
    | none => exact h2.elim
    | some pb =>
      cases a with
      | none => exact h1.elim
      | some pa => exact le_trans h1 h2

theorem updateBest_le (eps : ℚ) (best : Best) (mv o : ℚ) (za : List ℚ) :
    bestLe (updateBest eps best mv o za) best := by
  unfold updateBest
  split
  · next h =>
    cases best with
    | none => trivial
    | some p =>
      have ho : o < p.1 := by
        have hb := h.2
        simp only [bestGt, decide_eq_true_eq] at hb
        exact hb
      exact le_of_lt ho
  · exact bestLe_refl best

theorem runIters_le (pr : AdmmProblem) (linsolve : List (List ℚ) → List ℚ → List ℚ)
    (zlhs : List (List ℚ)) (fuel : Nat) (tol viollim eps : ℚ) :
    ∀ (t : Nat) (rho : ℚ) (best : Best) (st : AdmmState),
      (runIters pr linsolve zlhs fuel tol viollim eps t rho best st).elim True
        (fun rb => bestLe rb.2 best) := by
  intro t
  induction t with
  | zero => intro rho best st; exact bestLe_refl best
  | succ n ih =>
    intro rho best st
    simp only [runIters]
    cases hI : admmIter pr linsolve zlhs rho fuel tol st with
    | none => trivial
    | some out =>
      show (if viollim < out.maxviol then some (rho * 2, best)
          else runIters pr linsolve zlhs fuel tol viollim eps n rho
            (updateBest eps best out.maxviol out.objt out.za) out.st).elim True
        (fun rb => bestLe rb.2 best)
      split
      · exact bestLe_refl best
      · have h := ih rho (updateBest eps best out.maxviol out.objt out.za) out.st
        cases hres : runIters pr linsolve zlhs fuel tol viollim eps n rho
            (updateBest eps best out.maxviol out.objt out.za) out.st with
        | none => trivial
        | some rb =>
          rw [hres] at h
          exact bestLe_trans rb.2 (updateBest eps best out.maxviol out.objt out.za) best h
            (updateBest_le eps best out.maxviol out.objt out.za)

theorem runTrial_le (pr : AdmmProblem) (linsolve : List (List ℚ) → List ℚ → List ℚ)
    (num_iters fuel : Nat) (tol viollim eps : ℚ) (rho : ℚ) (best : Best) (z0 : List ℚ) :
    (runTrial pr linsolve num_iters fuel tol viollim eps rho best z0).elim True
      (fun rb => bestLe rb.2 best) :=
  runIters_le pr linsolve (zlhsOf pr rho) fuel tol viollim eps num_iters rho best
    ⟨z0, List.replicate pr.cons.length z0, List.replicate pr.cons.length (zeroVec pr.n)⟩

theorem runTrials_le (pr : AdmmProblem) (linsolve : List (List ℚ) → List ℚ → List ℚ)
    (num_iters fuel : Nat) (tol viollim eps : ℚ) :
    ∀ (zdraws : List (List ℚ)) (rho : ℚ) (best : Best),
      (runTrials pr linsolve num_iters fuel tol viollim eps rho best zdraws).elim True
        (fun rb => bestLe rb.2 best) := by
  intro zdraws
  induction zdraws with
  | nil => intro rho best; exact bestLe_refl best
  | cons z0 rest ih =>
    intro rho best
    simp only [runTrials]
    cases hT : runTrial pr linsolve num_iters fuel tol viollim eps rho best z0 with
    | none => trivial
    | some rb =>
      have h1 : bestLe rb.2 best := by
        have h := runTrial_le pr linsolve num_iters fuel tol viollim eps rho best z0
        rw [hT] at h
        exact h
      have h2 := ih rb.1 rb.2
      show (runTrials pr linsolve num_iters fuel tol viollim eps rb.1 rb.2 rest).elim True
        (fun rb2 => bestLe rb2.2 best)
      cases hres : runTrials pr linsolve num_iters fuel tol viollim eps rb.1 rb.2 rest with
      | none => trivial
      | some rb2 =>
        rw [hres] at h2
        exact bestLe_trans rb2.2 rb.2 best h2 h1

/-- Claim C6: the Best-found state is mutated only when the candidate's max
violation is strictly below the feasibility tolerance AND its objective is
strictly below the current best (first conjunct); the best objective is
non-increasing across the inner iterations of a trial (second conjunct) and
across the entire multi-trial run (third conjunct); and with no trials at all
`noncvx_admm` ends with the initial "none found" state, whose `bestx = None`
reaches `assign_vars` (fourth conjunct). -/
theorem admm_best_found_invariant :
    (∀ (eps : ℚ) (best : Best) (mv o : ℚ) (za : List ℚ),
        updateBest eps best mv o za = best ∨
          (mv < eps ∧ bestGt best o = true ∧ updateBest eps best mv o za = some (o, za))) ∧
    (∀ (pr : AdmmProblem) (linsolve : List (List ℚ) → List ℚ → List ℚ)
        (zlhs : List (List ℚ)) (fuel : Nat) (tol viollim eps : ℚ) (t : Nat) (rho : ℚ)
        (best : Best) (st : AdmmState),
        (runIters pr linsolve zlhs fuel tol viollim eps t rho best st).elim True
          (fun rb => bestLe rb.2 best)) ∧
    (∀ (pr : AdmmProblem) (linsolve : List (List ℚ) → List ℚ → List ℚ)
        (num_iters fuel : Nat) (tol viollim eps : ℚ) (zdraws : List (List ℚ)) (rho : ℚ)
        (best : Best),
        (runTrials pr linsolve num_iters fuel tol viollim eps rho best zdraws).elim True
          (fun rb => bestLe rb.2 best)) ∧
    (∀ (pr : AdmmProblem) (maximize : Bool) (lmb0 : List ℚ) (sizes : List Nat)
        (linsolve : List (List ℚ) → List ℚ → List ℚ) (num_iters fuel : Nat)
        (tol viollim eps : ℚ),
        noncvx_admm pr maximize lmb0 sizes linsolve [] num_iters fuel tol viollim eps
          = .typeError) := by
  refine ⟨?_, ?_, ?_, ?_⟩
  · intro eps best mv o za
    unfold updateBest
    split
    · next h => exact Or.inr ⟨h.1, h.2, rfl⟩
    · exact Or.inl rfl
  · intro pr linsolve zlhs fuel tol viollim eps t rho best st
    exact runIters_le pr linsolve zlhs fuel tol viollim eps t rho best st
  · intro pr linsolve num_iters fuel tol viollim eps zdraws rho best
    exact runTrials_le pr linsolve num_iters fuel tol viollim eps zdraws rho best
  · intro pr maximize lmb0 sizes linsolve num_iters fuel tol viollim eps
    cases maximize <;> rfl

theorem dotProduct_self_nn {n : Nat} (x : Fin n → ℚ) : 0 ≤ Matrix.dotProduct x x :=
  Finset.sum_nonneg (fun i _ => mul_self_nonneg (x i))

theorem shifted_quad_form {n : Nat} (P : Matrix (Fin n) (Fin n) ℚ) (c : ℚ) (x : Fin n → ℚ) :
    Matrix.dotProduct x ((P + c • 1).mulVec x)
      = Matrix.dotProduct x (P.mulVec x) + c * Matrix.dotProduct x x := by
  rw [Matrix.add_mulVec, Matrix.dotProduct_add, Matrix.smul_mulVec_assoc, Matrix.one_mulVec,
    Matrix.dotProduct_smul, smul_eq_mul]

/-- Claim C7: with `lmbMin` a minimum eigenvalue of `P` (characterized
variationally by the Rayleigh lower bound `hlow` and its attainment `hatt`),
`split_quadratic` returns a pair whose difference is `P` elementwise with both
components positive semidefinite; the zero matrix maps to two zero matrices,
a positive semidefinite `P` maps to `(P, 0)`, and `lmbMin < 0` gives
`(P + (1 - lmbMin) I, (1 - lmbMin) I)`. -/
theorem split_quadratic_spec {n : Nat} (P : Matrix (Fin n) (Fin n) ℚ) (lmbMin : ℚ)
    (hsym : P.transpose = P)
    (hlow : ∀ x : Fin n → ℚ,
      lmbMin * Matrix.dotProduct x x ≤ Matrix.dotProduct x (P.mulVec x))
    (hatt : ∃ x : Fin n → ℚ, Matrix.dotProduct x x ≠ 0 ∧
      Matrix.dotProduct x (P.mulVec x) = lmbMin * Matrix.dotProduct x x) :
    (split_quadratic P lmbMin).1 - (split_quadratic P lmbMin).2 = P ∧
      PSDq (split_quadratic P lmbMin).1 ∧ PSDq (split_quadratic P lmbMin).2 ∧
      split_quadratic (0 : Matrix (Fin n) (Fin n) ℚ) lmbMin = (0, 0) ∧
      (PSDq P → split_quadratic P lmbMin = (P, 0)) ∧
      (lmbMin < 0 →
        split_quadratic P lmbMin = (P + (1 - lmbMin) • 1, (1 - lmbMin) • 1)) := by
  obtain ⟨x0, hx0ne, hx0eq⟩ := hatt
  have hx0pos : 0 < Matrix.dotProduct x0 x0 :=
    lt_of_le_of_ne (dotProduct_self_nn x0) (Ne.symm hx0ne)
  refine ⟨?_, ?_, ?_, ?_, ?_, ?_⟩
  · unfold split_quadratic
    split
    · next hz => simpa using hz.symm
    · split
      · simp
      · simp
  · intro x
    unfold split_quadratic
    split
    · simp [Matrix.zero_mulVec]
    · split
      · next hneg =>
        rw [shifted_quad_form]
        have h1 := hlow x
        have h2 := dotProduct_self_nn x
        nlinarith
      · next hpos =>
        have h1 := hlow x
        have h2 := dotProduct_self_nn x
        have h3 : 0 ≤ lmbMin := not_lt.mp hpos
        nlinarith
  · intro x
    unfold split_quadratic
    split
    · simp [Matrix.zero_mulVec]
    · split
      · next hneg =>
        rw [Matrix.smul_mulVec_assoc, Matrix.one_mulVec, Matrix.dotProduct_smul, smul_eq_mul]
        have h2 := dotProduct_self_nn x
        nlinarith
      · simp [Matrix.zero_mulVec]
  · simp [split_quadratic]
  · intro hPSD
    have hl0 : 0 ≤ lmbMin := by
      have h1 := hPSD x0
      rw [hx0eq] at h1
      nlinarith
    unfold split_quadratic
    split
    · next hz => rw [hz]
    · split
      · next hneg => exact absurd hneg (not_lt.mpr hl0)
      · rfl
  · intro hneg
    unfold split_quadratic
    split
    · next hz =>
      exfalso
      rw [hz] at hx0eq
      rw [Matrix.zero_mulVec, Matrix.dotProduct_zero] at hx0eq
      nlinarith
    · rfl

/-- Witness for C7 at the spec's 1×1 scenario `P = [[-1]]`, `lmbMin = -1`:
`split_quadratic` gives `([[1]], [[2]])`, the difference reconstructs `P`, and
both parts are positive semidefinite. -/
theorem split_quadratic_spec_w :
    (!![(-1 : ℚ)]).transpose = !![(-1 : ℚ)] ∧
      split_quadratic !![(-1 : ℚ)] (-1) = (!![1], !![2]) ∧
      (split_quadratic !![(-1 : ℚ)] (-1)).1 - (split_quadratic !![(-1 : ℚ)] (-1)).2 =
        !![(-1 : ℚ)] ∧
      PSDq (split_quadratic !![(-1 : ℚ)] (-1)).1 ∧
      PSDq (split_quadratic !![(-1 : ℚ)] (-1)).2 := by
  have hmv : ∀ x : Fin 1 → ℚ,
      Matrix.dotProduct x ((!![(-1 : ℚ)]).mulVec x) = -1 * (x 0 * x 0) := by
    intro x
    simp [Matrix.dotProduct, Matrix.mulVec, Fin.sum_univ_one]
  have hdp : ∀ x : Fin 1 → ℚ, Matrix.dotProduct x x = x 0 * x 0 := by
    intro x
    simp [Matrix.dotProduct, Fin.sum_univ_one]
  have hlow : ∀ x : Fin 1 → ℚ,
      (-1) * Matrix.dotProduct x x ≤ Matrix.dotProduct x ((!![(-1 : ℚ)]).mulVec x) := by
    intro x
    rw [hmv x, hdp x]
  have hatt : ∃ x : Fin 1 → ℚ, Matrix.dotProduct x x ≠ 0 ∧
      Matrix.dotProduct x ((!![(-1 : ℚ)]).mulVec x) = -1 * Matrix.dotProduct x x := by
    refine ⟨fun _ => 1, ?_, ?_⟩
    · rw [hdp]; norm_num
    · rw [hmv, hdp]
  have hsym : (!![(-1 : ℚ)]).transpose = !![(-1 : ℚ)] := by
    ext i j
    fin_cases i
    fin_cases j
    rfl
  have h := split_quadratic_spec !![(-1 : ℚ)] (-1) hsym hlow hatt
  have hval : split_quadratic !![(-1 : ℚ)] (-1) = (!![1], !![2]) := by
    rw [h.2.2.2.2.2 (by norm_num), Prod.mk.injEq]
    constructor <;>
      · ext i j
        fin_cases i
        fin_cases j
        norm_num [Matrix.one_apply]
  exact ⟨hsym, hval, h.1, h.2.1, h.2.2.1⟩

theorem updateXY_get (rho : ℚ) (fuel : Nat) (tol : ℚ) :
    ∀ (cons : List Constr) (z : List ℚ) (ys xs' ys' : List (List ℚ)),
      updateXY cons z ys rho fuel tol = some (xs', ys') →
      xs'.length = cons.length ∧ ys'.length = cons.length ∧
      ∀ i, i < cons.length →
        one_qcqp (vadd z (smulV (1 / rho) (ys.getD i []))) (cons.getD i cdflt).P
            (cons.getD i cdflt).Q (cons.getD i cdflt).R (cons.getD i cdflt).eq
            (cons.getD i cdflt).eigh fuel tol = some (xs'.getD i []) ∧
        ys'.getD i [] = vadd (ys.getD i []) (smulV rho (vsub z (xs'.getD i []))) := by
  intro cons
  induction cons with
  | nil =>
    intro z ys xs' ys' h
    cases ys with
    | nil =>
      simp only [updateXY] at h
      injection h with h'
      obtain ⟨rfl, rfl⟩ := Prod.mk.inj h'
      refine ⟨rfl, rfl, ?_⟩
      intro i hi
      simp at hi
    | cons y yr => simp [updateXY] at h
  | cons con cs ih =>
    intro z ys xs' ys' h
    cases ys with
    | nil => simp [updateXY] at h
    | cons y yr =>
      simp only [updateXY] at h
      split at h
      · exact Option.noConfusion h
      · next xi hq =>
        split at h
        · exact Option.noConfusion h
        · next xs2 ys2 hr =>
          injection h with h'
          obtain ⟨rfl, rfl⟩ := Prod.mk.inj h'
          obtain ⟨l1, l2, hidx⟩ := ih z yr xs2 ys2 hr
          refine ⟨by simp [l1], by simp [l2], ?_⟩
          intro i hi
          cases i with
          | zero =>
            refine ⟨?_, ?_⟩
            · simpa using hq
            · simp
          | succ j =>
            have hj : j < cs.length := by simpa using hi
            have h3 := hidx j hj
            simpa using h3

/-- Claim C5: one inner ADMM iteration (with the linear-solver oracle assumed
exact on the system it is given) produces a consensus `z` solving
`(2*P0 + rho*M*I) z = sum_i (rho*x_i - y_i) - Q0`, local copies
`x_i = one_qcqp(z + y_i/rho, P_i, Q_i, R_i, rel_i)`, duals
`y_i += rho*(z - x_i)`, and the averaged estimate
`za = (sum_i x_i + z)/(M+1)` on which the violation and objective are
evaluated. -/
theorem admm_iteration_spec (pr : AdmmProblem)
    (linsolve : List (List ℚ) → List ℚ → List ℚ) (rho : ℚ) (fuel : Nat) (tol : ℚ)
    (st : AdmmState) (out : IterOut)
    (hit : admmIter pr linsolve (zlhsOf pr rho) rho fuel tol st = some out)
    (hsolve : matVec (zlhsOf pr rho) (linsolve (zlhsOf pr rho) (rhsOf pr rho st))
        = rhsOf pr rho st) :
    matVec (matAdd (smulM 2 pr.P0) (smulM (rho * pr.cons.length) (idMat pr.n))) out.st.z
        = vsub (sumVecs pr.n ((st.xs.zip st.ys).map (fun p => vsub (smulV rho p.1) p.2)))
            pr.Q0
      ∧ (∀ i, i < pr.cons.length →
          one_qcqp (vadd out.st.z (smulV (1 / rho) (st.ys.getD i [])))
              (pr.cons.getD i cdflt).P (pr.cons.getD i cdflt).Q (pr.cons.getD i cdflt).R
              (pr.cons.getD i cdflt).eq (pr.cons.getD i cdflt).eigh fuel tol
            = some (out.st.xs.getD i [])
          ∧ out.st.ys.getD i []
            = vadd (st.ys.getD i []) (smulV rho (vsub out.st.z (out.st.xs.getD i []))))
      ∧ out.za
          = smulV (1 / ((pr.cons.length : ℚ) + 1)) (vadd (sumVecs pr.n out.st.xs) out.st.z)
      ∧ out.maxviol = maxViol pr.cons out.za
      ∧ out.objt = quadVal pr.P0 pr.Q0 pr.R0 out.za := by
  simp only [admmIter] at hit
  split at hit
  · exact Option.noConfusion hit
  · next xs2 ys2 hu =>
    injection hit with h'
    subst h'
    obtain ⟨l1, l2, hidx⟩ :=
      updateXY_get rho fuel tol pr.cons (linsolve (zlhsOf pr rho) (rhsOf pr rho st))
        st.ys xs2 ys2 hu
    exact ⟨hsolve, hidx, rfl, rfl, rfl⟩

/-- Witness for C5: the single-constraint instance `P0 = [[1]]`, `Q0 = [0]`,
`R0 = -5`, constraint `x^2 ≤ 0`, `rho = 5`, iterate `z = xs = ys = 0`. -/
theorem admm_iteration_spec_w :
    matVec (zlhsOf ⟨[[1]], [0], -5, [⟨[[1]], [0], 0, false, ⟨[1], [[1]]⟩⟩], 1⟩ 5)
        (linsolve1 (zlhsOf ⟨[[1]], [0], -5, [⟨[[1]], [0], 0, false, ⟨[1], [[1]]⟩⟩], 1⟩ 5)
          (rhsOf ⟨[[1]], [0], -5, [⟨[[1]], [0], 0, false, ⟨[1], [[1]]⟩⟩], 1⟩ 5
            ⟨[0], [[0]], [[0]]⟩))
      = rhsOf ⟨[[1]], [0], -5, [⟨[[1]], [0], 0, false, ⟨[1], [[1]]⟩⟩], 1⟩ 5
          ⟨[0], [[0]], [[0]]⟩ ∧
    matVec (matAdd (smulM 2 [[1]]) (smulM (5 * 1) (idMat 1))) [0] = [0] ∧
    one_qcqp (vadd [0] (smulV (1 / 5) [0])) [[1]] [0] 0 false ⟨[1], [[1]]⟩ 100 (1 / 1000000)
      = some [0] ∧
    [(0 : ℚ)] = smulV (1 / ((1 : ℚ) + 1)) (vadd (sumVecs 1 [[0]]) [0]) := by
  have h := admm_iteration_spec ⟨[[1]], [0], -5, [⟨[[1]], [0], 0, false, ⟨[1], [[1]]⟩⟩], 1⟩
    linsolve1 5 100 (1 / 1000000) ⟨[0], [[0]], [[0]]⟩ ⟨⟨[0], [[0]], [[0]]⟩, [0], 0, -5⟩
    (by decide!) (by decide!)
  refine ⟨by decide!, ?_, ?_, ?_⟩
  · have h1 := h.1
    exact h1.trans (by decide!)
  · exact (h.2.1 0 (by decide)).1
  · exact h.2.2.1

/-- Claim C9: the penalty is initialized as `5 * (2*(1 - lmb_min)/M)` when the
minimum oracle eigenvalue of the objective matrix is negative and `5 * (1/M)`
otherwise; whenever an iteration's max violation strictly exceeds the
divergence threshold, the trial stops at once with `rho` doubled and the
Best-found state untouched; and the trial loop threads the returned `rho`
into all subsequent trials. -/
theorem admm_rho_policy (pr : AdmmProblem) (linsolve : List (List ℚ) → List ℚ → List ℚ)
    (zlhs : List (List ℚ)) (fuel : Nat) (tol viollim eps : ℚ) (t : Nat) (rho : ℚ)
    (best : Best) (st : AdmmState) (out : IterOut) (lmb0 : List ℚ) (m num_iters : Nat)
    (rho2 : ℚ) (best2 : Best) (z0 : List ℚ) (rest : List (List ℚ))
    (hit : admmIter pr linsolve zlhs rho fuel tol st = some out)
    (hdiv : viollim < out.maxviol) :
    runIters pr linsolve zlhs fuel tol viollim eps (t + 1) rho best st = some (rho * 2, best)
      ∧ rhoInit lmb0 m
        = (if minList lmb0 < 0 then 5 * (2 * (1 - minList lmb0) / m) else 5 * (1 / m))
      ∧ runTrials pr linsolve num_iters fuel tol viollim eps rho2 best2 (z0 :: rest)
        = (match runTrial pr linsolve num_iters fuel tol viollim eps rho2 best2 z0 with
          | none => none
          | some rb => runTrials pr linsolve num_iters fuel tol viollim eps rb.1 rb.2 rest) := by
  refine ⟨?_, ?_, rfl⟩
  · simp only [runIters, hit]
    rw [if_pos hdiv]
  · unfold rhoInit
    split <;> ring

/-- Witness for C9: minimize `x^2` subject to `x^2 - 2e10 = 0`: the first
iterate has violation `2e10 > 1e10`, so the trial aborts with `rho` doubled
from 5 to 10, and the initial `rho` for this instance is `5 * (1/1) = 5`. -/
theorem admm_rho_policy_w :
    admmIter ⟨[[1]], [0], 0, [⟨[[1]], [0], -20000000000, true, ⟨[1], [[1]]⟩⟩], 1⟩ linsolve1
        (zlhsOf ⟨[[1]], [0], 0, [⟨[[1]], [0], -20000000000, true, ⟨[1], [[1]]⟩⟩], 1⟩ 5) 5 100
        (1 / 1000000) ⟨[0], [[0]], [[0]]⟩
      = some ⟨⟨[0], [[0]], [[0]]⟩, [0], 20000000000, 0⟩ ∧
    (10000000000 : ℚ) < 20000000000 ∧
    runIters ⟨[[1]], [0], 0, [⟨[[1]], [0], -20000000000, true, ⟨[1], [[1]]⟩⟩], 1⟩ linsolve1
        (zlhsOf ⟨[[1]], [0], 0, [⟨[[1]], [0], -20000000000, true, ⟨[1], [[1]]⟩⟩], 1⟩ 5) 100
        (1 / 1000000) 10000000000 (1 / 1000) 1 5 none ⟨[0], [[0]], [[0]]⟩
      = some (10, none) ∧
    rhoInit [1] 1 = 5 := by
  have h := admm_rho_policy
    ⟨[[1]], [0], 0, [⟨[[1]], [0], -20000000000, true, ⟨[1], [[1]]⟩⟩], 1⟩ linsolve1
    (zlhsOf ⟨[[1]], [0], 0, [⟨[[1]], [0], -20000000000, true, ⟨[1], [[1]]⟩⟩], 1⟩ 5) 100
    (1 / 1000000) 10000000000 (1 / 1000) 0 5 none ⟨[0], [[0]], [[0]]⟩
    ⟨⟨[0], [[0]], [[0]]⟩, [0], 20000000000, 0⟩ [1] 1 1 5 none [0] []
    (by decide!) (by decide!)
  refine ⟨by decide!, by decide!, ?_, ?_⟩
  · exact h.1.trans (by decide!)
  · exact h.2.1.trans (by decide!)
